import Mathlib

/-!
Shallow embedding of the Local-AI repository core: the transactional
message ledger of the Express backend, the newline-delimited stream
decoder of `lib/ollama.js`, and the turn orchestration of
`react-ui/src/App.js` (normalization, code-fence continuation, and
persistence calls).  Text is modelled as `List Char`; JavaScript string
operations are translated function by function.
-/

/-- Characters treated as whitespace by the JavaScript `trim` family
(the ASCII part of the `\s` class, which is all that the repository's
data ever contains). -/
def jsWS (c : Char) : Bool :=
  c = ' ' || c = '\t' || c = '\n' || c = '\r' || c = '\x0b' || c = '\x0c'

/-- JavaScript `String.prototype.trimStart`. -/
def jsTrimStart (l : List Char) : List Char := l.dropWhile jsWS

/-- JavaScript `String.prototype.trimEnd`, written recursively so the
result is literally a prefix of the input: a character is kept when
something after it survives, and a trailing whitespace run is dropped. -/
def jsTrimEnd : List Char → List Char
| [] => []
| c :: rest =>
  match jsTrimEnd rest with
  | [] => if jsWS c then [] else [c]
  | r1 :: r2 => c :: r1 :: r2

/-- JavaScript `String.prototype.trim`. -/
def jsTrim (l : List Char) : List Char := jsTrimEnd (jsTrimStart l)

/-- Case folding used by the `/i` regular-expression flag, for the
characters that occur in the meta-line patterns of `sanitizeAssistant`
(ASCII letters plus the German umlauts appearing in the patterns). -/
def lowerJS (c : Char) : Char :=
  if 'A' ≤ c && c ≤ 'Z' then Char.ofNat (c.toNat + 32)
  else if c = 'Ä' then 'ä'
  else if c = 'Ö' then 'ö'
  else if c = 'Ü' then 'ü'
  else c

/-- Case-insensitive prefix test: does `l` start with pattern `p`? -/
def startsWithCI : List Char → List Char → Bool
| [], _ => true
| _ :: _, [] => false
| p :: ps, c :: cs => lowerJS c = lowerJS p && startsWithCI ps cs

/-- The fixed meta-line prefixes of the `metaLine` regular expression in
`App.js` line 46 (anchored at the start, `/i` flag). -/
def metaPatterns : List (List Char) :=
  [("antwort:").data, ("die erste zeile sollte").data,
   ("keine erklärungen").data, ("keine aufzählungen").data,
   ("nur die nackte wahrheit").data, ("nur zwei einzelne sätze").data,
   ("no explanation").data, ("just the answer").data, ("format:").data]

/-- `metaLine.test(firstLine)`: the trimmed first line matches one of the
known explanatory prefixes, case-insensitively. -/
def metaTest (l : List Char) : Bool :=
  metaPatterns.any (fun p => startsWithCI p l)

/-- The first line of a text: `t.split('\n')[0]`. -/
def firstLineOf (t : List Char) : List Char := t.takeWhile (fun c => c ≠ '\n')

/-- `t.slice(t.indexOf('\n') + 1)`: drop the first line.  When the text
has no newline, `indexOf` yields `-1` and `slice(0)` returns the text
unchanged, exactly as in the source. -/
def dropLineJS (t : List Char) : List Char :=
  if (firstLineOf t).length = t.length then t else t.drop ((firstLineOf t).length + 1)

/-- The `while (removed < 2)` loop of `sanitizeAssistant` (App.js lines
47-51), unrolled to its two possible iterations: each iteration removes
the first line when its trimmed form matches a meta pattern, and the
loop stops after at most two removals. -/
def stripMetaTwice (t : List Char) : List Char :=
  if metaTest (jsTrim (firstLineOf t)) then
    let t1 := dropLineJS t
    if metaTest (jsTrim (firstLineOf t1)) then dropLineJS t1 else t1
  else t

/-- `sanitizeAssistant` (App.js lines 44-53): trim the start, strip up to
two leading meta lines, then trim. -/
def sanitizeAssistant (s : List Char) : List Char :=
  jsTrim (stripMetaTwice (jsTrimStart s))

/-- `t.replace(/\r/g, '')`. -/
def removeCR (t : List Char) : List Char := t.filter (fun c => c ≠ '\r')

/-- Emission step of the newline collapser: a pending run of `n`
newlines is written back as-is when shorter than 3, and as exactly two
newlines otherwise (the `\n{3,}` → `\n\n` replacement). -/
def emitNL (n : Nat) : List Char :=
  if n ≥ 3 then ['\n', '\n'] else List.replicate n '\n'

/-- Worker for `t.replace(/\n{3,}/g, '\n\n')`: `n` counts the newline
run read so far. -/
def collapseAux : Nat → List Char → List Char
| n, [] => emitNL n
| n, c :: rest =>
  if c = '\n' then collapseAux (n + 1) rest
  else emitNL n ++ c :: collapseAux 0 rest

/-- `t.replace(/\n{3,}/g, '\n\n')`: collapse every maximal run of three
or more newlines to exactly two newlines. -/
def collapseNL (t : List Char) : List Char := collapseAux 0 t

/-- `normalizeText` (App.js line 30): remove carriage returns, collapse
newline runs, trim both ends. -/
def normalizeText (t : List Char) : List Char := jsTrim (collapseNL (removeCR t))

/-- The completion-time normalization pass applied in `onDone`
(App.js lines 251 and 276): `normalizeText(sanitizeAssistant(text))`. -/
def cleanText (t : List Char) : List Char := normalizeText (sanitizeAssistant t)

/-- The backtick character, `Char.ofNat 96`. -/
def btick : Char := Char.ofNat 96

/-- Number of non-overlapping occurrences of the triple-backtick fence
marker, as counted by `text.match` with a global regular expression
(App.js line 55). -/
def countFence : List Char → Nat
| a :: b :: c :: rest =>
  if a = btick && b = btick && c = btick then 1 + countFence rest
  else countFence (b :: c :: rest)
| _ => 0

/-- `hasOpenCodeFence` (App.js lines 54-57): odd fence-marker count. -/
def hasOpenCodeFence (t : List Char) : Bool := countFence t % 2 = 1

/-- `text.slice(-800)`: the last 800 characters (the whole text when it
is shorter). -/
def takeLast (n : Nat) (t : List Char) : List Char := t.drop (t.length - n)

/-! ## A small JSON value model and parser

`chatWithOllama` parses each stream line with the JavaScript `JSON.parse`.
The subset implemented here (objects, arrays, strings with the common
escapes, integers, booleans, null) covers every record shape the
inference backend emits; a line outside the subset fails to parse and is
skipped, like any malformed line. -/

inductive Json where
| null : Json
| bool (b : Bool) : Json
| num (n : Int) : Json
| str (s : List Char) : Json
| arr (xs : List Json) : Json
| obj (fields : List (List Char × Json)) : Json

/-- Whitespace skipped between JSON tokens. -/
def skipWS (l : List Char) : List Char :=
  l.dropWhile (fun c => c = ' ' || c = '\t' || c = '\n' || c = '\r')

/-- Parse the remainder of a JSON string literal (the opening quote
already consumed), handling the single-character escapes. -/
def parseStrBody : List Char → Option (List Char × List Char)
| [] => none
| c :: rest =>
  if c = '"' then some ([], rest)
  else if c = '\\' then
    match rest with
    | [] => none
    | e :: rest2 =>
      let d : Option Char :=
        if e = '"' then some '"'
        else if e = '\\' then some '\\'
        else if e = '/' then some '/'
        else if e = 'n' then some '\n'
        else if e = 't' then some '\t'
        else if e = 'r' then some '\r'
        else if e = 'b' then some (Char.ofNat 8)
        else if e = 'f' then some (Char.ofNat 12)
        else none
      match d with
      | none => none
      | some d0 =>
        match parseStrBody rest2 with
        | some (s, rem) => some (d0 :: s, rem)
        | none => none
  else
    match parseStrBody rest with
    | some (s, rem) => some (c :: s, rem)
    | none => none

/-- Parse a (possibly signed) integer literal. -/
def parseIntLit (l : List Char) : Option (Int × List Char) :=
  let (neg, l1) : Bool × List Char :=
    match l with
    | c :: rest => if c = '-' then (true, rest) else (false, l)
    | [] => (false, l)
  let digits := l1.takeWhile Char.isDigit
  let rest := l1.drop digits.length
  if digits = [] then none
  else
    let v : Nat := digits.foldl (fun a c => a * 10 + (c.toNat - 48)) 0
    some (if neg then -(v : Int) else (v : Int), rest)

/-- Parsing mode of the single fuel-indexed parser: a value, the field
list of an object, or the element list of an array. -/
inductive PMode where
| val : PMode
| fields : PMode
| elems : PMode

/-- Fuel-indexed JSON parser.  In `fields` mode it parses
`"key": value (, ...)* }` and returns the object; in `elems` mode it
parses `value (, ...)* ]` and returns the array. -/
def parseCore : Nat → PMode → List Char → Option (Json × List Char)
| 0, _, _ => none
| fuel + 1, .val, l =>
  match skipWS l with
  | [] => none
  | c :: rest =>
    if c = '"' then
      match parseStrBody rest with
      | some (s, rem) => some (.str s, rem)
      | none => none
    else if c = '{' then
      match skipWS rest with
      | '}' :: rem => some (.obj [], rem)
      | other => parseCore fuel .fields other
    else if c = '[' then
      match skipWS rest with
      | ']' :: rem => some (.arr [], rem)
      | other => parseCore fuel .elems other
    else if c = 't' then
      match rest with
      | 'r' :: 'u' :: 'e' :: rem => some (.bool true, rem)
      | _ => none
    else if c = 'f' then
      match rest with
      | 'a' :: 'l' :: 's' :: 'e' :: rem => some (.bool false, rem)
      | _ => none
    else if c = 'n' then
      match rest with
      | 'u' :: 'l' :: 'l' :: rem => some (.null, rem)
      | _ => none
    else
      match parseIntLit (c :: rest) with
      | some (n, rem) => some (.num n, rem)
      | none => none
| fuel + 1, .fields, l =>
  match skipWS l with
  | '"' :: rest =>
    match parseStrBody rest with
    | none => none
    | some (k, rem1) =>
      match skipWS rem1 with
      | ':' :: rem2 =>
        match parseCore fuel .val rem2 with
        | none => none
        | some (v, rem3) =>
          match skipWS rem3 with
          | ',' :: rem4 =>
            match parseCore fuel .fields rem4 with
            | some (.obj fs, rem5) => some (.obj ((k, v) :: fs), rem5)
            | _ => none
          | '}' :: rem4 => some (.obj [(k, v)], rem4)
          | _ => none
      | _ => none
  | _ => none
| fuel + 1, .elems, l =>
  match parseCore fuel .val l with
  | none => none
  | some (v, rem) =>
    match skipWS rem with
    | ',' :: rem2 =>
      match parseCore fuel .elems rem2 with
      | some (.arr xs, rem3) => some (.arr (v :: xs), rem3)
      | _ => none
    | ']' :: rem2 => some (.arr [v], rem2)
    | _ => none

/-- `JSON.parse`: a full parse of the given text, no trailing garbage. -/
def Json.parse (l : List Char) : Option Json :=
  match parseCore (l.length + 1) .val l with
  | some (j, rem) => if skipWS rem = [] then some j else none
  | none => none

/-- Property lookup on a parsed record (`undefined` for a missing key or
a non-object receiver; the last duplicate key wins, as in `JSON.parse`). -/
def jlookup (j : Json) (key : List Char) : Option Json :=
  match j with
  | .obj fs => ((fs.reverse.find? (fun kv => kv.1 == key)).map (fun kv => kv.2))
  | _ => none

/-- JavaScript truthiness of a JSON value. -/
def jsTruthy : Json → Bool
| .null => false
| .bool b => b
| .num n => n ≠ 0
| .str s => s ≠ []
| .arr _ => true
| .obj _ => true

/-- The `??` operator: `null` (and a missing value) falls through. -/
def nullish : Option Json → Option Json
| some .null => none
| v => v

/-- String coercion of a scalar JSON value; containers render as the
empty string at this depth.  Used only one level deep below. -/
def jsToTextScalar : Json → List Char
| .null => ("null").data
| .bool true => ("true").data
| .bool false => ("false").data
| .num n => (toString n).data
| .str s => s
| .arr _ => []
| .obj _ => []

/-- JavaScript string coercion of a JSON value, used by `acc += piece`.
An array coerces to its comma-joined elements (rendered one level deep);
every fragment an actual backend record carries is a plain string, so
the deeper cases are never reached. -/
def jsToText : Json → List Char
| .null => ("null").data
| .bool true => ("true").data
| .bool false => ("false").data
| .num n => (toString n).data
| .str s => s
| .arr xs =>
  match xs.map jsToTextScalar with
  | [] => []
  | y :: ys => y ++ (ys.map (fun z => ',' :: z)).flatten
| .obj _ => ("[object Object]").data

/-! ## Stream Frame Decoder (`chatWithOllama`, lib/ollama.js lines 100-133)

The byte stream is a list of chunks (each a `List Char`); the reader's
`read()` sequence yields them in order and then reports end of stream.
A user abort is modelled by the index of the `read()` call that raises
`AbortError`: `some k` means the first `k` chunk reads succeed and the
next read throws.  Decoded output is the sequence of `onDelta` calls and
the `done`-record event; `doneCalled` records whether `onDone` ran. -/

inductive Ev where
| delta (piece : List Char) : Ev
| done (acc : List Char) : Ev
deriving DecidableEq, Repr

/-- Is this a `delta` event? -/
def Ev.isDelta : Ev → Bool
| .delta _ => true
| .done _ => false

/-- The `obj.message?.content ?? obj.response ?? ''` chain followed by the
`if (piece)` truthiness test: the fragment appended for one record, empty
when there is none. -/
def pieceOf (j : Json) : List Char :=
  let picked := nullish ((jlookup j (("message").data)).bind
                  (fun m => jlookup m (("content").data)))
  let picked := match picked with
    | some v => some v
    | none => nullish (jlookup j (("response").data))
  match picked with
  | some v => if jsTruthy v then jsToText v else []
  | none => []

/-- `if (obj.done)`: truthiness of the terminal flag. -/
def doneFlag (j : Json) : Bool :=
  match jlookup j (("done").data) with
  | some v => jsTruthy v
  | none => false

/-- Process one complete line: trim it, skip it when empty or unparsable,
otherwise emit a delta for a non-empty fragment and stop on the terminal
flag.  Returns the new accumulator, the events emitted, and whether the
record was terminal. -/
def processLine (acc : List Char) (line : List Char) : List Char × List Ev × Bool :=
  if jsTrim line = [] then (acc, [], false)
  else
    match Json.parse (jsTrim line) with
    | none => (acc, [], false)
    | some j =>
      if doneFlag j then
        (acc ++ pieceOf j,
         (if pieceOf j = [] then [] else [Ev.delta (pieceOf j)])
           ++ [Ev.done (acc ++ pieceOf j)],
         true)
      else
        (acc ++ pieceOf j,
         if pieceOf j = [] then [] else [Ev.delta (pieceOf j)],
         false)

/-- Process the complete lines of one buffered chunk, stopping early at a
terminal record exactly as the `for (const line of lines)` loop does. -/
def processLines (acc : List Char) : List (List Char) → List Char × List Ev × Bool
| [] => (acc, [], false)
| line :: rest =>
  if (processLine acc line).2.2 then
    ((processLine acc line).1, (processLine acc line).2.1, true)
  else
    ((processLines (processLine acc line).1 rest).1,
     (processLine acc line).2.1 ++ (processLines (processLine acc line).1 rest).2.1,
     (processLines (processLine acc line).1 rest).2.2)

/-- `buf.split('\n')` followed by `buf = lines.pop()`: the complete lines
and the trailing fragment kept for the next chunk. -/
def splitNL : List Char → List (List Char) × List Char
| [] => ([], [])
| c :: rest =>
  let (ls, tail) := splitNL rest
  if c = '\n' then ([] :: ls, tail)
  else
    match ls with
    | [] => ([], c :: tail)
    | l :: ls2 => ((c :: l) :: ls2, tail)

/-- State of the `while (true)` read loop after it stops. -/
structure LoopRes where
  events : List Ev
  acc : List Char
  buf : List Char
  sawDone : Bool
  threw : Bool
deriving DecidableEq, Repr

/-- The read loop of `chatWithOllama`: per chunk, append to the buffer,
split on newline, retain the trailing fragment, process the complete
lines, and return early on a terminal record; a pending abort makes the
corresponding `read()` throw. -/
def loopChunks (buf acc : List Char) (evs : List Ev) :
    List (List Char) → Option Nat → LoopRes
| [], abortAt =>
  if abortAt = some 0 then ⟨evs, acc, buf, false, true⟩
  else ⟨evs, acc, buf, false, false⟩
| ch :: rest, abortAt =>
  if abortAt = some 0 then ⟨evs, acc, buf, false, true⟩
  else
    if (processLines acc (splitNL (buf ++ ch)).1).2.2 then
      ⟨evs ++ (processLines acc (splitNL (buf ++ ch)).1).2.1,
       (processLines acc (splitNL (buf ++ ch)).1).1,
       (splitNL (buf ++ ch)).2, true, false⟩
    else
      loopChunks (splitNL (buf ++ ch)).2
        (processLines acc (splitNL (buf ++ ch)).1).1
        (evs ++ (processLines acc (splitNL (buf ++ ch)).1).2.1)
        rest (abortAt.map (fun k => k - 1))

/-- The tail flush after the loop (lines 123-129): parse the remaining
buffered fragment best-effort and flush any fragment as a final delta.
The terminal flag of a tail record is ignored, exactly as in the source. -/
def flushTail (buf acc : List Char) : List Char × List Ev :=
  if jsTrim buf = [] then (acc, [])
  else
    match Json.parse (jsTrim buf) with
    | none => (acc, [])
    | some j =>
      if pieceOf j = [] then (acc, [])
      else (acc ++ pieceOf j, [Ev.delta (pieceOf j)])

/-- Complete result of one `chatWithOllama` call. -/
structure ChatRes where
  events : List Ev
  acc : List Char
  buf : List Char
  sawDone : Bool
  doneCalled : Bool
  threw : Bool
deriving DecidableEq, Repr

/-- `chatWithOllama` over a chunked stream: run the read loop; an abort
propagates (no flush, no `onDone`); a terminal record returns at once
(no tail flush); stream end flushes the buffered tail and then invokes
`onDone` with the accumulated text. -/
def chatWithOllama (chunks : List (List Char)) (abortAt : Option Nat) : ChatRes :=
  let r := loopChunks [] [] [] chunks abortAt
  if r.threw then ⟨r.events, r.acc, r.buf, false, false, true⟩
  else if r.sawDone then ⟨r.events, r.acc, r.buf, true, true, false⟩
  else
    ⟨r.events ++ (flushTail r.buf r.acc).2, (flushTail r.buf r.acc).1,
     r.buf, false, true, false⟩

/-! ## Continuation Controller and turn orchestration (`sendChat`, App.js)

`sendChat` is modelled as the sequence of service calls it makes: chat
creation, repair generation requests, ledger appends, the metadata
update, and the draft deletion.  The repair stream is summarised by an
oracle giving the text it accumulates for a given excerpt; the per-call
success of the best-effort persistence block is a parameter. -/

inductive PCall where
| createChat (model : List Char) : PCall
| repairReq (excerpt : List Char) : PCall
| appendMsg (chatId role content : List Char) : PCall
| updateChat (chatId title model : List Char) : PCall
| deleteDraft : PCall
deriving DecidableEq, Repr

/-- Is this a ledger append call? -/
def PCall.isAppend : PCall → Bool
| .appendMsg _ _ _ => true
| _ => false

/-- Is this a chat-creation call? -/
def PCall.isCreate : PCall → Bool
| .createChat _ => true
| _ => false

/-- The `while (tries < 1 && hasOpenCodeFence(...))` continuation loop of
`sendChat` (App.js lines 256-283).  Each pass sends one repair request
whose prompt carries the last 800 characters of the current text; the
repair deltas are merged into the same assistant message and the result
is cleaned again by the inner `onDone`. -/
def contLoop (tries : Nat) (text : List Char) (oracle : List Char → List Char) :
    List Char × List PCall :=
  if h : tries < 1 ∧ hasOpenCodeFence text = true then
    ((contLoop (tries + 1) (cleanText (text ++ oracle (takeLast 800 text))) oracle).1,
     PCall.repairReq (takeLast 800 text)
       :: (contLoop (tries + 1) (cleanText (text ++ oracle (takeLast 800 text))) oracle).2)
  else (text, [])
termination_by 1 - tries
decreasing_by omega

/-- The chat id a non-ephemeral turn ends up writing to: the current one
when present, otherwise the one returned by `createChat`. -/
def resolvedChat (currentChatId createdId : Option (List Char)) : Option (List Char) :=
  match currentChatId with
  | some c => some c
  | none => createdId

/-- The saved title: `(userTextRaw || 'Chat').slice(0, 60)`. -/
def titleOf (userText : List Char) : List Char :=
  (if userText = [] then ("Chat").data else userText).take 60

/-- The best-effort persistence block of `onDone` (App.js lines 286-295):
append the user message, append the assistant message, update the chat
metadata, delete the draft; the surrounding `try`/`catch` stops the block
at the first failing call and swallows the error. -/
def persistBlock (ok : PCall → Bool) (cid userText finalText sendModel : List Char) :
    List PCall :=
  let a1 := PCall.appendMsg cid (("user").data) userText
  if ok a1 = false then [a1]
  else
    let a2 := PCall.appendMsg cid (("assistant").data) finalText
    if ok a2 = false then [a1, a2]
    else
      let a3 := PCall.updateChat cid (titleOf userText) sendModel
      if ok a3 = false then [a1, a2, a3]
      else [a1, a2, a3, PCall.deleteDraft]

/-- One full `sendChat` turn, as the list of service calls it issues
together with the surfaced error flag and the final assistant text.
Mirrors App.js lines 193-306: create a chat only for a non-ephemeral
turn with no current chat (a creation failure surfaces an error and
sends no generation request); run the primary stream; an abort skips
`onDone` entirely; otherwise clean the text, run the continuation loop,
and — only when not incognito and a chat id exists — run the
persistence block. -/
def sendChat (incognito : Bool) (currentChatId createdId : Option (List Char))
    (sendModel userText : List Char)
    (chunks : List (List Char)) (abortAt : Option Nat)
    (oracle : List Char → List Char) (ok : PCall → Bool) :
    List PCall × Bool × Option (List Char) :=
  let needCreate := incognito = false ∧ currentChatId = none
  let preCalls : List PCall :=
    if needCreate then [PCall.createChat sendModel] else []
  if h : needCreate ∧ createdId = none then (preCalls, true, none)
  else
    let chatId : Option (List Char) :=
      if incognito then currentChatId else resolvedChat currentChatId createdId
    if (chatWithOllama chunks abortAt).threw then (preCalls, false, none)
    else
      (preCalls
         ++ (contLoop 0 (cleanText (chatWithOllama chunks abortAt).acc) oracle).2
         ++ (match incognito, chatId with
             | false, some cid =>
               persistBlock ok cid userText
                 (contLoop 0 (cleanText (chatWithOllama chunks abortAt).acc) oracle).1
                 sendModel
             | _, _ => []),
       false,
       some (contLoop 0 (cleanText (chatWithOllama chunks abortAt).acc) oracle).1)

/-! ## Ledger Store and Transactional Append Service (part_000)

The MySQL tables are modelled as in-memory lists of rows.  The
`POST /chats/:id/messages` handler runs one transaction: ownership
check, `SELECT COALESCE(MAX(idx), -1) ... FOR UPDATE`, insert at
`max + 1`, bump the parent chat's `updated_at` with the same timestamp,
commit.  The exclusive row lock serializes concurrent appends to one
conversation, so every interleaving of concurrent append calls executes
as some sequential order of whole transactions; traces of operations
model exactly those serialized interleavings. -/

structure ChatRow where
  id : String
  userId : String
  title : Option String
  model : Option String
  incognito : Bool
  createdAt : String
  updatedAt : String
deriving DecidableEq, Repr

structure MsgRow where
  id : String
  chatId : String
  role : String
  content : String
  idx : Int
  createdAt : String
deriving DecidableEq, Repr

structure Db where
  chats : List ChatRow
  messages : List MsgRow
deriving DecidableEq, Repr

/-- The empty database. -/
def Db.empty : Db := ⟨[], []⟩

/-- `SELECT id FROM chats WHERE id = ? AND user_id = ? LIMIT 1`. -/
def findChat (db : Db) (cid uid : String) : Option ChatRow :=
  db.chats.find? (fun ch => ch.id == cid && ch.userId == uid)

/-- The rows of one conversation, in table order. -/
def msgsOf (db : Db) (cid : String) : List MsgRow :=
  db.messages.filter (fun m => m.chatId == cid)

/-- `SELECT COALESCE(MAX(idx), -1) AS m FROM messages WHERE chat_id = ?`. -/
def maxIdx (db : Db) (cid : String) : Int :=
  ((msgsOf db cid).map (fun m => m.idx)).foldr max (-1)

/-- `SELECT ... FROM messages WHERE chat_id = ? ORDER BY idx ASC`
(the message list of `GET /chats/:id`). -/
def listMessages (db : Db) (cid : String) : List MsgRow :=
  (msgsOf db cid).insertionSort (fun a b => a.idx ≤ b.idx)

/-- Errors surfaced by the append handler: 404 and 500. -/
inductive ApiErr where
| notFound : ApiErr
| unavailable : ApiErr
deriving DecidableEq, Repr

/-- The JSON body of a successful append: `{ id, idx, created_at }`. -/
structure AppendOut where
  id : String
  idx : Int
  created_at : String
deriving DecidableEq, Repr

/-- Failure injection points for the statements inside the append
transaction: the ownership check, the locked MAX read, the insert, the
timestamp update, and the commit itself. -/
inductive FailAt where
| checkChat : FailAt
| selectMax : FailAt
| insertMsg : FailAt
| updateTs : FailAt
| commitTx : FailAt
deriving DecidableEq, Repr

/-- The `POST /chats/:id/messages` transaction (part_000 lines 284-319),
with an optional injected storage failure.  Writes accumulate in a
pending copy of the database and become visible only at commit; every
failure path returns the original database (the `rollback` calls) along
with the surfaced error. -/
def appendTx (fp : Option FailAt) (db : Db) (uid cid role content newId ts : String) :
    Db × Except ApiErr AppendOut :=
  if fp = some .checkChat then (db, .error .unavailable)
  else
    match findChat db cid uid with
    | none => (db, .error .notFound)
    | some _ =>
      if fp = some .selectMax then (db, .error .unavailable)
      else
        let nextIdx : Int := maxIdx db cid + 1
        if fp = some .insertMsg then (db, .error .unavailable)
        else
          let pending1 : Db :=
            ⟨db.chats, db.messages ++ [⟨newId, cid, role, content, nextIdx, ts⟩]⟩
          if fp = some .updateTs then (db, .error .unavailable)
          else
            let pending2 : Db :=
              ⟨pending1.chats.map
                 (fun ch => if ch.id == cid then { ch with updatedAt := ts } else ch),
               pending1.messages⟩
            if fp = some .commitTx then (db, .error .unavailable)
            else (pending2, .ok ⟨newId, nextIdx, ts⟩)

/-- Operations of a serialized trace against the store: chat creation
(`POST /chats`) and message append; each append transaction holds the
conversation's row lock, so a trace is exactly one admissible
interleaving of concurrent calls. -/
inductive Op where
| createChat (id uid : String) (title model : Option String) (incog : Bool) (ts : String) : Op
| append (uid cid role content newId ts : String) : Op

/-- One trace step.  The Boolean reports whether the step was an append
that committed successfully. -/
def stepOp (db : Db) : Op → Db × Bool
| .createChat id uid title model incog ts =>
  if (db.chats.find? (fun ch => ch.id == id)).isSome then (db, false)
  else (⟨db.chats ++ [⟨id, uid, title, model, incog, ts, ts⟩], db.messages⟩, false)
| .append uid cid role content newId ts =>
  let (db2, r) := appendTx none db uid cid role content newId ts
  (db2, r.isOk)

/-- Run a trace of operations. -/
def runOps (db : Db) : List Op → Db
| [] => db
| op :: rest => runOps (stepOp db op).1 rest

/-- Is this op an append addressed to conversation `cid`? -/
def Op.isAppendTo (cid : String) : Op → Bool
| .append _ c _ _ _ _ => c == cid
| _ => false

/-- Number of successful appends to conversation `cid` in a trace. -/
def succAppends (db : Db) (cid : String) : List Op → Nat
| [] => 0
| op :: rest =>
  (if op.isAppendTo cid && (stepOp db op).2 then 1 else 0)
    + succAppends (stepOp db op).1 cid rest

/-- Scanner for a run of three consecutive newlines somewhere in a text
(the redex of the `\n{3,}` replacement). -/
def hasTripleNL : List Char → Bool
| a :: b :: c :: rest =>
  (a = '\n' && b = '\n' && c = '\n') || hasTripleNL (b :: c :: rest)
| _ => false

/-! ## Helper lemmas about the JavaScript trim family -/

theorem dropWhile_head_not {α : Type} (p : α → Bool) :
    ∀ (l : List α) {c : α} {rest : List α}, l.dropWhile p = c :: rest → p c = false := by
  intro l
  induction l with
  | nil => intro c rest h; rw [List.dropWhile_nil] at h; cases h
  | cons x xs ih =>
    intro c rest h
    by_cases hx : p x
    · rw [List.dropWhile_cons_of_pos hx] at h; exact ih h
    · rw [List.dropWhile_cons_of_neg hx] at h
      cases h; simpa using hx

theorem jsTrimStart_idem (l : List Char) : jsTrimStart (jsTrimStart l) = jsTrimStart l := by
  unfold jsTrimStart
  cases h : l.dropWhile jsWS with
  | nil => simp
  | cons c rest =>
    have hc := dropWhile_head_not jsWS l h
    rw [List.dropWhile_cons_of_neg (by simp [hc])]

theorem jsTrimEnd_prefix : ∀ l : List Char, jsTrimEnd l <+: l := by
  intro l
  induction l with
  | nil => simp [jsTrimEnd]
  | cons c rest ih =>
    unfold jsTrimEnd
    cases h : jsTrimEnd rest with
    | nil =>
      by_cases hw : jsWS c
      · simp [hw]
      · simp [hw]
    | cons r1 r2 =>
      rw [h] at ih
      exact (List.prefix_cons_inj c).mpr ih

theorem jsTrimEnd_idem : ∀ l : List Char, jsTrimEnd (jsTrimEnd l) = jsTrimEnd l := by
  intro l
  induction l with
  | nil => rfl
  | cons c rest ih =>
    cases h : jsTrimEnd rest with
    | nil =>
      by_cases hw : jsWS c
      · have hz : jsTrimEnd (c :: rest) = [] := by rw [jsTrimEnd, h]; simp [hw]
        rw [hz]; rfl
      · have hz : jsTrimEnd (c :: rest) = [c] := by rw [jsTrimEnd, h]; simp [hw]
        rw [hz, jsTrimEnd]
        simp [jsTrimEnd, hw]
    | cons r1 r2 =>
      have hz : jsTrimEnd (c :: rest) = c :: r1 :: r2 := by rw [jsTrimEnd, h]
      rw [h] at ih
      rw [hz, jsTrimEnd, ih]

theorem jsTrim_head_not (l : List Char) {c : Char} {rest : List Char}
    (h : jsTrim l = c :: rest) : jsWS c = false := by
  unfold jsTrim at h
  obtain ⟨t, ht⟩ := jsTrimEnd_prefix (jsTrimStart l)
  rw [h] at ht
  exact dropWhile_head_not jsWS l
    (show l.dropWhile jsWS = c :: (rest ++ t) by simpa [jsTrimStart] using ht.symm)

theorem jsTrimStart_trim (l : List Char) : jsTrimStart (jsTrim l) = jsTrim l := by
  cases h : jsTrim l with
  | nil => simp [jsTrimStart]
  | cons c rest =>
    have hc := jsTrim_head_not l h
    unfold jsTrimStart
    rw [List.dropWhile_cons_of_neg (by simp [hc])]

theorem jsTrim_idem (l : List Char) : jsTrim (jsTrim l) = jsTrim l := by
  conv_lhs => rw [jsTrim, jsTrimStart_trim l]
  rw [jsTrim, jsTrimEnd_idem]

/-! ## Helper lemmas about the newline collapser -/

theorem hasTripleNL_cons_of_ne {c : Char} (hc : c ≠ '\n') (x : List Char) :
    hasTripleNL (c :: x) = hasTripleNL x := by
  match x with
  | [] => rfl
  | [b] => rfl
  | b :: d :: r => simp [hasTripleNL, hc]

theorem hasTripleNL_nl_cons_of_ne {c : Char} (hc : c ≠ '\n') (x : List Char) :
    hasTripleNL ('\n' :: c :: x) = hasTripleNL (c :: x) := by
  match x with
  | [] => rfl
  | d :: r => simp [hasTripleNL, hc]

theorem hasTripleNL_two_nl_cons_of_ne {c : Char} (hc : c ≠ '\n') (x : List Char) :
    hasTripleNL ('\n' :: '\n' :: c :: x) = hasTripleNL (c :: x) := by
  rw [show hasTripleNL ('\n' :: '\n' :: c :: x)
        = ((('\n' : Char) = '\n' && ('\n' : Char) = '\n' && c = '\n')
           || hasTripleNL ('\n' :: c :: x)) from rfl]
  simp [hc, hasTripleNL_nl_cons_of_ne hc]

theorem emitNL_cases (n : Nat) :
    emitNL n = [] ∨ emitNL n = ['\n'] ∨ emitNL n = ['\n', '\n'] := by
  unfold emitNL
  by_cases h : n ≥ 3
  · simp [h]
  · interval_cases n <;> simp

theorem hasTripleNL_emitNL (n : Nat) : hasTripleNL (emitNL n) = false := by
  rcases emitNL_cases n with h | h | h <;> rw [h] <;> rfl

theorem hasTripleNL_emitNL_append {c : Char} (hc : c ≠ '\n') (n : Nat) (x : List Char) :
    hasTripleNL (emitNL n ++ c :: x) = hasTripleNL (c :: x) := by
  rcases emitNL_cases n with h | h | h <;> rw [h]
  · rfl
  · exact hasTripleNL_nl_cons_of_ne hc x
  · exact hasTripleNL_two_nl_cons_of_ne hc x

theorem hasTripleNL_collapseAux : ∀ (l : List Char) (n : Nat),
    hasTripleNL (collapseAux n l) = false := by
  intro l
  induction l with
  | nil => intro n; rw [collapseAux]; exact hasTripleNL_emitNL n
  | cons c rest ih =>
    intro n
    rw [collapseAux]
    by_cases hc : c = '\n'
    · simp only [hc, if_pos rfl]; exact ih (n + 1)
    · rw [if_neg hc, hasTripleNL_emitNL_append hc, hasTripleNL_cons_of_ne hc]
      exact ih 0

theorem hasTripleNL_collapseNL (t : List Char) : hasTripleNL (collapseNL t) = false :=
  hasTripleNL_collapseAux t 0

theorem hasTripleNL_append_right : ∀ (x t : List Char),
    hasTripleNL x = true → hasTripleNL (x ++ t) = true := by
  intro x
  match x with
  | [] => intro t h; cases h
  | [a] => intro t h; cases h
  | [a, b] => intro t h; cases h
  | a :: b :: c :: r =>
    intro t h
    rw [show hasTripleNL (a :: b :: c :: r)
          = ((a = '\n' && b = '\n' && c = '\n') || hasTripleNL (b :: c :: r)) from rfl] at h
    rw [show (a :: b :: c :: r) ++ t = a :: b :: c :: (r ++ t) from rfl]
    rw [show hasTripleNL (a :: b :: c :: (r ++ t))
          = ((a = '\n' && b = '\n' && c = '\n') || hasTripleNL (b :: c :: (r ++ t))) from rfl]
    rcases Bool.or_eq_true_iff.mp h with h1 | h2
    · simp [h1]
    · have := hasTripleNL_append_right (b :: c :: r) t h2
      rw [show (b :: c :: r) ++ t = b :: c :: (r ++ t) from rfl] at this
      simp [this]

theorem hasTripleNL_cons_of_true {c : Char} {x : List Char}
    (h : hasTripleNL x = true) : hasTripleNL (c :: x) = true := by
  match x, h with
  | a :: b :: d :: r, h =>
    rw [show hasTripleNL (c :: a :: b :: d :: r)
          = ((c = '\n' && a = '\n' && b = '\n') || hasTripleNL (a :: b :: d :: r)) from rfl]
    simp [h]

theorem hasTripleNL_append_left : ∀ (t x : List Char),
    hasTripleNL x = true → hasTripleNL (t ++ x) = true := by
  intro t x h
  induction t with
  | nil => simpa using h
  | cons c t2 ih => exact hasTripleNL_cons_of_true ih

theorem hasTripleNL_trim_false {l : List Char} (h : hasTripleNL l = false) :
    hasTripleNL (jsTrim l) = false := by
  by_contra hcon
  have htrue : hasTripleNL (jsTrim l) = true := Bool.ne_false_iff.mp hcon
  obtain ⟨t, ht⟩ := jsTrimEnd_prefix (jsTrimStart l)
  have h1 : hasTripleNL (jsTrimStart l) = true := by
    rw [← ht]
    exact hasTripleNL_append_right _ t htrue
  have h2 : hasTripleNL l = true := by
    have hsplit : l.takeWhile jsWS ++ l.dropWhile jsWS = l := List.takeWhile_append_dropWhile jsWS l
    rw [← hsplit]
    exact hasTripleNL_append_left _ _ h1
  rw [h2] at h; cases h

theorem hasTripleNL_replicate_ge (n : Nat) (h : 3 ≤ n) :
    hasTripleNL (List.replicate n '\n') = true := by
  obtain ⟨k, rfl⟩ : ∃ k, n = 3 + k := ⟨n - 3, by omega⟩
  rw [show (3 + k) = k + 3 from by omega]
  rw [show List.replicate (k + 3) '\n'
        = '\n' :: '\n' :: '\n' :: List.replicate k '\n' from by
      simp [List.replicate_succ]]
  rfl

theorem replicate_le_two_of_no_triple {n : Nat}
    (h : hasTripleNL (List.replicate n '\n') = false) : n ≤ 2 := by
  by_contra hc
  rw [hasTripleNL_replicate_ge n (by omega)] at h
  cases h

theorem emitNL_of_le_two {n : Nat} (h : n ≤ 2) : emitNL n = List.replicate n '\n' := by
  unfold emitNL
  rw [if_neg (by omega)]

theorem collapseAux_fixed : ∀ (l : List Char) (n : Nat),
    hasTripleNL (List.replicate n '\n' ++ l) = false →
    collapseAux n l = List.replicate n '\n' ++ l := by
  intro l
  induction l with
  | nil =>
    intro n h
    rw [List.append_nil] at h
    rw [collapseAux, emitNL_of_le_two (replicate_le_two_of_no_triple h), List.append_nil]
  | cons c rest ih =>
    intro n h
    rw [collapseAux]
    by_cases hc : c = '\n'
    · subst hc
      rw [if_pos rfl]
      have hrep : List.replicate n '\n' ++ '\n' :: rest
          = List.replicate (n + 1) '\n' ++ rest := by
        rw [List.replicate_succ' (n := n)]
        simp
      rw [hrep] at h
      rw [ih (n + 1) h, hrep]
    · rw [if_neg hc]
      have hpre : hasTripleNL (List.replicate n '\n') = false := by
        by_contra hx
        have hx2 := Bool.ne_false_iff.mp hx
        have := hasTripleNL_append_right (List.replicate n '\n') (c :: rest) hx2
        rw [this] at h; cases h
      have hrest : hasTripleNL rest = false := by
        by_contra hx
        have hx2 := Bool.ne_false_iff.mp hx
        have h3 := hasTripleNL_cons_of_true (c := c) hx2
        have h4 := hasTripleNL_append_left (List.replicate n '\n') (c :: rest) h3
        rw [h4] at h; cases h
      rw [emitNL_of_le_two (replicate_le_two_of_no_triple hpre)]
      have := ih 0 (by simpa using hrest)
      simp only [List.replicate_zero, List.nil_append] at this
      rw [this]

theorem collapseNL_fixed {l : List Char} (h : hasTripleNL l = false) :
    collapseNL l = l := by
  have := collapseAux_fixed l 0 (by simpa using h)
  simpa [collapseNL] using this

theorem mem_collapseAux : ∀ (l : List Char) (n : Nat) (c : Char),
    c ∈ collapseAux n l → c = '\n' ∨ c ∈ l := by
  intro l
  induction l with
  | nil =>
    intro n c hmem
    rw [collapseAux] at hmem
    rcases emitNL_cases n with h | h | h <;> rw [h] at hmem <;> simp at hmem <;> simp [hmem]
  | cons x rest ih =>
    intro n c hmem
    rw [collapseAux] at hmem
    by_cases hx : x = '\n'
    · rw [if_pos hx] at hmem
      rcases ih (n + 1) c hmem with h | h
      · exact Or.inl h
      · exact Or.inr (List.mem_cons_of_mem x h)
    · rw [if_neg hx] at hmem
      rcases List.mem_append.mp hmem with h | h
      · left
        rcases emitNL_cases n with he | he | he <;> rw [he] at h <;> simp at h <;> simp [h]
      · rcases List.mem_cons.mp h with h2 | h2
        · exact Or.inr (by simp [h2])
        · rcases ih 0 c h2 with h3 | h3
          · exact Or.inl h3
          · exact Or.inr (List.mem_cons_of_mem x h3)

theorem collapseAux_append_last_not_nl :
    ∀ (xs : List Char), xs ≠ [] → xs.getLast? ≠ some '\n' →
    ∀ (n : Nat) (ys : List Char),
      collapseAux n (xs ++ ys) = collapseAux n xs ++ collapseAux 0 ys := by
  intro xs
  induction xs with
  | nil => intro h; exact absurd rfl h
  | cons c rest ih =>
    intro hne hlast n ys
    cases hr : rest with
    | nil =>
      have hc : c ≠ '\n' := by
        rw [hr] at hlast
        simpa [List.getLast?] using hlast
      rw [show (([c] : List Char) ++ ys) = c :: ys from rfl]
      rw [collapseAux, if_neg hc, collapseAux, if_neg hc, collapseAux]
      simp [emitNL]
    | cons r1 r2 =>
      rw [hr] at ih hlast
      have hlast2 : (r1 :: r2).getLast? ≠ some '\n' := by
        simpa [List.getLast?_cons_cons] using hlast
      have hne2 : (r1 :: r2) ≠ [] := by simp
      rw [show ((c :: r1 :: r2) ++ ys) = c :: ((r1 :: r2) ++ ys) from rfl]
      by_cases hc : c = '\n'
      · rw [collapseAux, if_pos hc, collapseAux, if_pos hc]
        exact ih hne2 hlast2 (n + 1) ys
      · rw [collapseAux, if_neg hc, collapseAux, if_neg hc]
        rw [ih hne2 hlast2 0 ys]
        simp

theorem collapseAux_replicate (m : Nat) :
    ∀ (n : Nat) (ys : List Char),
      collapseAux n (List.replicate m '\n' ++ ys) = collapseAux (n + m) ys := by
  induction m with
  | zero => intro n ys; simp
  | succ k ih =>
    intro n ys
    rw [List.replicate_succ]
    rw [show (('\n' :: List.replicate k '\n') ++ ys) = '\n' :: (List.replicate k '\n' ++ ys)
          from rfl]
    rw [collapseAux, if_pos rfl, ih]
    congr 1
    omega

theorem collapseNL_run (n : Nat) (a b : List Char) (hn : 3 ≤ n)
    (ha : a.getLast? ≠ some '\n') (hb : b.head? ≠ some '\n') :
    collapseNL (a ++ List.replicate n '\n' ++ b)
      = collapseNL a ++ '\n' :: '\n' :: collapseNL b := by
  have hemit : emitNL (0 + n) = ['\n', '\n'] := by
    unfold emitNL
    rw [if_pos (by omega)]
  have core : collapseAux 0 (List.replicate n '\n' ++ b)
      = '\n' :: '\n' :: collapseNL b := by
    rw [collapseAux_replicate n 0 b]
    cases b with
    | nil =>
      rw [collapseAux, hemit, collapseNL, collapseAux]
      rfl
    | cons c b2 =>
      have hc : c ≠ '\n' := by simpa using hb
      have h1 : collapseAux (0 + n) (c :: b2) = emitNL (0 + n) ++ c :: collapseAux 0 b2 := by
        rw [collapseAux, if_neg hc]
      have h2 : collapseNL (c :: b2) = c :: collapseAux 0 b2 := by
        rw [collapseNL, collapseAux, if_neg hc]
        rfl
      rw [h1, h2, hemit]
      rfl
  cases ha2 : a with
  | nil =>
    simp only [List.nil_append]
    rw [collapseNL, core]
    rw [show collapseNL ([] : List Char) = [] from rfl]
    rfl
  | cons a1 a2 =>
    rw [← ha2]
    have hane : a ≠ [] := by rw [ha2]; simp
    rw [List.append_assoc, collapseNL,
      collapseAux_append_last_not_nl a hane ha 0 (List.replicate n '\n' ++ b), core]
    rfl

theorem mem_jsTrim {c : Char} {l : List Char} (h : c ∈ jsTrim l) : c ∈ l := by
  obtain ⟨t, ht⟩ := jsTrimEnd_prefix (jsTrimStart l)
  have h1 : c ∈ jsTrimStart l := by
    rw [← ht]
    exact List.mem_append_left t h
  have h2 : l.takeWhile jsWS ++ l.dropWhile jsWS = l := List.takeWhile_append_dropWhile jsWS l
  rw [← h2]
  exact List.mem_append_right _ h1

theorem noCR_cleanText (t : List Char) : '\r' ∉ cleanText t := by
  intro hmem
  have h1 : '\r' ∈ collapseNL (removeCR (sanitizeAssistant t)) := mem_jsTrim hmem
  rcases mem_collapseAux _ 0 '\r' h1 with h2 | h2
  · cases h2
  · rcases List.mem_filter.mp h2 with ⟨_, hp⟩
    simp at hp

theorem removeCR_cleanText (t : List Char) : removeCR (cleanText t) = cleanText t := by
  rw [removeCR, List.filter_eq_self]
  intro a ha
  have := noCR_cleanText t
  simp only [decide_eq_true_eq]
  intro heq
  rw [heq] at ha
  exact this ha

theorem stripMetaTwice_iter (u : List Char) :
    ∃ k, k ≤ 2 ∧ stripMetaTwice u = dropLineJS^[k] u ∧
      (∀ i, i < k → metaTest (jsTrim (firstLineOf (dropLineJS^[i] u))) = true) := by
  by_cases h1 : metaTest (jsTrim (firstLineOf u)) = true
  · by_cases h2 : metaTest (jsTrim (firstLineOf (dropLineJS u))) = true
    · refine ⟨2, by omega, ?_, ?_⟩
      · rw [stripMetaTwice, if_pos h1, if_pos h2]
        simp [Function.iterate_succ, Function.iterate_zero]
      · intro i hi
        interval_cases i
        · simpa using h1
        · simpa [Function.iterate_succ] using h2
    · refine ⟨1, by omega, ?_, ?_⟩
      · rw [stripMetaTwice, if_pos h1, if_neg h2]
        simp
      · intro i hi
        interval_cases i
        simpa using h1
  · refine ⟨0, by omega, ?_, ?_⟩
    · rw [stripMetaTwice, if_neg h1]
      simp
    · intro i hi; omega

/-- C9: the completion-time normalization pass strips at most two leading
lines, each only when its trimmed form matches one of the fixed meta
prefixes case-insensitively; it collapses every run of three or more
newlines to exactly two (one blank line), leaving no such run in the
output; and its output is trimmed on both ends. -/
theorem normalization_pass_shape (t : List Char) :
    (∃ k, k ≤ 2 ∧ sanitizeAssistant t = jsTrim (dropLineJS^[k] (jsTrimStart t)) ∧
      (∀ i, i < k →
        metaTest (jsTrim (firstLineOf (dropLineJS^[i] (jsTrimStart t)))) = true))
    ∧ hasTripleNL (cleanText t) = false
    ∧ jsTrim (cleanText t) = cleanText t
    ∧ (∀ n a b, 3 ≤ n → a.getLast? ≠ some '\n' → b.head? ≠ some '\n' →
        collapseNL (a ++ List.replicate n '\n' ++ b)
          = collapseNL a ++ '\n' :: '\n' :: collapseNL b) := by
  refine ⟨?_, ?_, ?_, ?_⟩
  · obtain ⟨k, hk, heq, hmeta⟩ := stripMetaTwice_iter (jsTrimStart t)
    exact ⟨k, hk, by rw [sanitizeAssistant, heq], hmeta⟩
  · exact hasTripleNL_trim_false (hasTripleNL_collapseNL _)
  · rw [cleanText, normalizeText, jsTrim_idem]
  · intro n a b hn ha hb
    exact collapseNL_run n a b hn ha hb

/-- Concrete instance of the normalization-pass shape theorem, with the
run-collapsing conjunct instantiated at a run of four newlines. -/
theorem normalization_pass_shape_witness :
    (∃ k, k ≤ 2 ∧
      sanitizeAssistant (("antwort: x\n  hi\n\n\n\n\nbye  ").data)
        = jsTrim (dropLineJS^[k] (jsTrimStart (("antwort: x\n  hi\n\n\n\n\nbye  ").data))) ∧
      (∀ i, i < k →
        metaTest (jsTrim (firstLineOf
          (dropLineJS^[i] (jsTrimStart (("antwort: x\n  hi\n\n\n\n\nbye  ").data))))) = true))
    ∧ hasTripleNL (cleanText (("antwort: x\n  hi\n\n\n\n\nbye  ").data)) = false
    ∧ jsTrim (cleanText (("antwort: x\n  hi\n\n\n\n\nbye  ").data))
        = cleanText (("antwort: x\n  hi\n\n\n\n\nbye  ").data)
    ∧ collapseNL (("ab").data ++ List.replicate 4 '\n' ++ ("cd").data)
        = collapseNL (("ab").data) ++ '\n' :: '\n' :: collapseNL (("cd").data) := by
  obtain ⟨h1, h2, h3, h4⟩ := normalization_pass_shape (("antwort: x\n  hi\n\n\n\n\nbye  ").data)
  exact ⟨h1, h2, h3, h4 4 (("ab").data) (("cd").data) (by omega) (by decide) (by decide)⟩

/-- C10 counterexample: a text with three leading meta lines.  One pass
strips only two of them (the `removed < 2` bound), so the once-normalized
text still begins with a meta line and a second pass strips it too: the
pass is not idempotent on this input. -/
theorem normalization_not_idempotent_cx :
    cleanText (cleanText (("antwort: a\nantwort: b\nantwort: c\nx").data))
      ≠ cleanText (("antwort: a\nantwort: b\nantwort: c\nx").data) := by
  decide

/-- C10 amended: the normalization pass is idempotent on every input
whose once-normalized form does not itself start with a meta-prefix
line; equivalently, a second application changes nothing unless the
first pass exhausted its two-line stripping budget with a meta line
still left in front. -/
theorem normalization_idempotent_amended (t : List Char)
    (h : metaTest (jsTrim (firstLineOf (cleanText t))) = false) :
    cleanText (cleanText t) = cleanText t := by
  have hy : cleanText t = jsTrim (collapseNL (removeCR (sanitizeAssistant t))) := rfl
  have htrim : jsTrim (cleanText t) = cleanText t := by
    rw [hy, jsTrim_idem]
  have hts : jsTrimStart (cleanText t) = cleanText t := by
    rw [hy, jsTrimStart_trim]
  have hstrip : stripMetaTwice (cleanText t) = cleanText t := by
    rw [stripMetaTwice, if_neg (by rw [h]; simp)]
  have hsan : sanitizeAssistant (cleanText t) = cleanText t := by
    rw [sanitizeAssistant, hts, hstrip, htrim]
  have hnotriple : hasTripleNL (cleanText t) = false :=
    hasTripleNL_trim_false (hasTripleNL_collapseNL _)
  have hcoll : collapseNL (cleanText t) = cleanText t := collapseNL_fixed hnotriple
  calc cleanText (cleanText t)
      = jsTrim (collapseNL (removeCR (sanitizeAssistant (cleanText t)))) := rfl
    _ = jsTrim (collapseNL (removeCR (cleanText t))) := by rw [hsan]
    _ = jsTrim (collapseNL (cleanText t)) := by rw [removeCR_cleanText]
    _ = jsTrim (cleanText t) := by rw [hcoll]
    _ = cleanText t := htrim

/-- Concrete instance of the amended idempotence theorem. -/
theorem normalization_idempotent_amended_witness :
    metaTest (jsTrim (firstLineOf (cleanText (("hello\n\n\n\nworld ").data)))) = false
    ∧ cleanText (cleanText (("hello\n\n\n\nworld ").data))
        = cleanText (("hello\n\n\n\nworld ").data) :=
  ⟨by decide, normalization_idempotent_amended (("hello\n\n\n\nworld ").data) (by decide)⟩

/-- C6: feeding the decoder the record split across two chunks —
`{"message":{"content":"ab"}}\n{"mess` and then
`age":{"content":"cd"},"done":false}\n{"done":true}\n` — yields exactly
delta "ab", delta "cd", then the done event, and the sequence ends with
the terminal record seen. -/
theorem decoder_framing_reassembly :
    chatWithOllama
      [("\x7b\"message\":\x7b\"content\":\"ab\"\x7d\x7d\n\x7b\"mess").data,
       ("age\":\x7b\"content\":\"cd\"\x7d,\"done\":false\x7d\n\x7b\"done\":true\x7d\n").data]
      none
    = ⟨[Ev.delta (("ab").data), Ev.delta (("cd").data), Ev.done (("abcd").data)],
       ("abcd").data, [], true, true, false⟩ := by
  decide

/-! ## Claims about the Transactional Append Service -/

theorem msgsOf_append_self (db : Db) (cid : String) (m : MsgRow) (h : m.chatId = cid) :
    msgsOf ⟨db.chats, db.messages ++ [m]⟩ cid = msgsOf db cid ++ [m] := by
  unfold msgsOf
  rw [List.filter_append]
  simp [h]

theorem msgsOf_append_other (db : Db) (cid : String) (m : MsgRow) (h : m.chatId ≠ cid) :
    msgsOf ⟨db.chats, db.messages ++ [m]⟩ cid = msgsOf db cid := by
  unfold msgsOf
  rw [List.filter_append]
  simp [h]

/-- C2: for an existing conversation owned by the caller, the append
transaction reads the current maximum position, inserts the new message
at `max + 1` (`0` for an empty conversation), stamps the parent chat's
`updated_at` with the same timestamp used for the message, commits, and
returns the new id, the assigned position and that timestamp. -/
theorem append_transaction_algorithm (db : Db) (uid cid role content newId ts : String)
    (ch : ChatRow) (hfound : findChat db cid uid = some ch) :
    (appendTx none db uid cid role content newId ts).2
        = .ok ⟨newId, maxIdx db cid + 1, ts⟩
    ∧ msgsOf (appendTx none db uid cid role content newId ts).1 cid
        = msgsOf db cid ++ [⟨newId, cid, role, content, maxIdx db cid + 1, ts⟩]
    ∧ (∀ c2, c2 ∈ (appendTx none db uid cid role content newId ts).1.chats →
        c2.id = cid → c2.updatedAt = ts)
    ∧ (∀ c3, c3 ≠ cid →
        msgsOf (appendTx none db uid cid role content newId ts).1 c3 = msgsOf db c3)
    ∧ (msgsOf db cid = [] →
        (appendTx none db uid cid role content newId ts).2 = .ok ⟨newId, 0, ts⟩) := by
  have htx : appendTx none db uid cid role content newId ts
      = (⟨db.chats.map (fun c0 => if c0.id == cid then { c0 with updatedAt := ts } else c0),
          db.messages ++ [⟨newId, cid, role, content, maxIdx db cid + 1, ts⟩]⟩,
         .ok ⟨newId, maxIdx db cid + 1, ts⟩) := by
    unfold appendTx
    rw [hfound]
    simp
  refine ⟨by rw [htx], ?_, ?_, ?_, ?_⟩
  · rw [htx]
    exact msgsOf_append_self
      ⟨db.chats.map (fun c0 => if c0.id == cid then { c0 with updatedAt := ts } else c0),
       db.messages⟩ cid _ rfl
  · rw [htx]
    intro c2 hmem hid
    simp only [List.mem_map] at hmem
    obtain ⟨c0, _, hc0⟩ := hmem
    by_cases he : c0.id = cid
    · rw [← hc0]
      simp [he]
    · exfalso
      rw [← hc0] at hid
      rw [show ((if c0.id == cid then { c0 with updatedAt := ts } else c0)) = c0 from by
        simp [he]] at hid
      exact he hid
  · intro c3 hne
    rw [htx]
    exact msgsOf_append_other _ c3 _ (fun hh => hne hh.symm)
  · intro hempty
    rw [htx]
    have : maxIdx db cid = -1 := by
      unfold maxIdx
      rw [hempty]
      rfl
    simp [this]

/-- Concrete instance of the append-algorithm theorem: a one-chat
database with one existing message at position 0. -/
theorem append_transaction_algorithm_witness :
    findChat ⟨[⟨"c1", "u1", none, none, false, "t0", "t0"⟩],
              [⟨"m0", "c1", "user", "hi", 0, "t0"⟩]⟩ "c1" "u1"
        = some ⟨"c1", "u1", none, none, false, "t0", "t0"⟩
    ∧ (appendTx none ⟨[⟨"c1", "u1", none, none, false, "t0", "t0"⟩],
                      [⟨"m0", "c1", "user", "hi", 0, "t0"⟩]⟩
         "u1" "c1" "assistant" "yo" "m1" "t1").2
        = .ok ⟨"m1", maxIdx ⟨[⟨"c1", "u1", none, none, false, "t0", "t0"⟩],
                             [⟨"m0", "c1", "user", "hi", 0, "t0"⟩]⟩ "c1" + 1, "t1"⟩ := by
  constructor
  · decide
  · exact (append_transaction_algorithm _ "u1" "c1" "assistant" "yo" "m1" "t1"
      ⟨"c1", "u1", none, none, false, "t0", "t0"⟩ (by decide)).1

/-- C3: whenever any step inside the append transaction fails — the
conversation missing or not owned by the caller, or a storage failure at
any statement — the whole unit rolls back: the returned database is the
original one (no inserted row, no timestamp change) and the caller sees
`NotFound` or `Unavailable`; moreover a missing conversation yields
`NotFound`, and every injected storage failure yields an error. -/
theorem append_rollback_on_failure (fp : Option FailAt)
    (db : Db) (uid cid role content newId ts : String) :
    (∀ e, (appendTx fp db uid cid role content newId ts).2 = .error e →
      (appendTx fp db uid cid role content newId ts).1 = db
      ∧ (e = .notFound ∨ e = .unavailable))
    ∧ (fp = none → findChat db cid uid = none →
        (appendTx fp db uid cid role content newId ts).2 = .error .notFound)
    ∧ (fp ≠ none → ∃ e, (appendTx fp db uid cid role content newId ts).2 = .error e) := by
  refine ⟨?_, ?_, ?_⟩
  · intro e herr
    have hroll : (appendTx fp db uid cid role content newId ts).1 = db := by
      rcases fp with _ | f
      · cases hf : findChat db cid uid with
        | none => simp [appendTx, hf]
        | some ch =>
          rw [show appendTx none db uid cid role content newId ts
              = (⟨db.chats.map
                    (fun c0 => if c0.id == cid then { c0 with updatedAt := ts } else c0),
                  db.messages ++ [⟨newId, cid, role, content, maxIdx db cid + 1, ts⟩]⟩,
                 .ok ⟨newId, maxIdx db cid + 1, ts⟩) from by
            unfold appendTx; rw [hf]; simp] at herr
          cases herr
      · cases f <;> cases hf : findChat db cid uid <;> simp [appendTx, hf]
    refine ⟨hroll, ?_⟩
    cases e
    · exact Or.inl rfl
    · exact Or.inr rfl
  · intro hnone hf
    subst hnone
    unfold appendTx
    rw [hf]
    simp
  · intro hsome
    obtain ⟨f, rfl⟩ := Option.ne_none_iff_exists'.mp hsome
    cases f <;> cases hf : findChat db cid uid
    case checkChat.none => exact ⟨.unavailable, by simp [appendTx]⟩
    case checkChat.some => exact ⟨.unavailable, by simp [appendTx]⟩
    case selectMax.none => exact ⟨.notFound, by simp [appendTx, hf]⟩
    case selectMax.some => exact ⟨.unavailable, by simp [appendTx, hf]⟩
    case insertMsg.none => exact ⟨.notFound, by simp [appendTx, hf]⟩
    case insertMsg.some => exact ⟨.unavailable, by simp [appendTx, hf]⟩
    case updateTs.none => exact ⟨.notFound, by simp [appendTx, hf]⟩
    case updateTs.some => exact ⟨.unavailable, by simp [appendTx, hf]⟩
    case commitTx.none => exact ⟨.notFound, by simp [appendTx, hf]⟩
    case commitTx.some => exact ⟨.unavailable, by simp [appendTx, hf]⟩

/-- Concrete instance of the rollback theorem: a storage failure injected
at the insert statement leaves the database untouched and surfaces an
error. -/
theorem append_rollback_on_failure_witness :
    (appendTx (some FailAt.insertMsg)
       ⟨[⟨"c1", "u1", none, none, false, "t0", "t0"⟩], []⟩
       "u1" "c1" "user" "hi" "m1" "t1").2 = .error .unavailable
    ∧ (appendTx (some FailAt.insertMsg)
         ⟨[⟨"c1", "u1", none, none, false, "t0", "t0"⟩], []⟩
         "u1" "c1" "user" "hi" "m1" "t1").1
        = ⟨[⟨"c1", "u1", none, none, false, "t0", "t0"⟩], []⟩ := by
  have herr : (appendTx (some FailAt.insertMsg)
      ⟨[⟨"c1", "u1", none, none, false, "t0", "t0"⟩], []⟩
      "u1" "c1" "user" "hi" "m1" "t1").2 = .error .unavailable := rfl
  exact ⟨herr,
    ((append_rollback_on_failure (some FailAt.insertMsg)
        ⟨[⟨"c1", "u1", none, none, false, "t0", "t0"⟩], []⟩
        "u1" "c1" "user" "hi" "m1" "t1").1 .unavailable herr).1⟩

/-! ## The ordering invariant of the ledger -/

theorem appendTx_none_miss (db : Db) (uid cid role content newId ts : String)
    (h : findChat db cid uid = none) :
    appendTx none db uid cid role content newId ts = (db, .error .notFound) := by
  unfold appendTx
  rw [h]
  simp

theorem appendTx_none_hit (db : Db) (uid cid role content newId ts : String)
    (ch : ChatRow) (h : findChat db cid uid = some ch) :
    appendTx none db uid cid role content newId ts
      = (⟨db.chats.map (fun c0 => if c0.id == cid then { c0 with updatedAt := ts } else c0),
          db.messages ++ [⟨newId, cid, role, content, maxIdx db cid + 1, ts⟩]⟩,
         .ok ⟨newId, maxIdx db cid + 1, ts⟩) := by
  unfold appendTx
  rw [h]
  simp

theorem msgsOf_appendTx_hit (db : Db) (uid cid role content newId ts : String)
    (ch : ChatRow) (h : findChat db cid uid = some ch) (c : String) :
    msgsOf (appendTx none db uid cid role content newId ts).1 c
      = if cid = c
        then msgsOf db c ++ [⟨newId, cid, role, content, maxIdx db cid + 1, ts⟩]
        else msgsOf db c := by
  rw [appendTx_none_hit db uid cid role content newId ts ch h]
  show (db.messages ++ [(⟨newId, cid, role, content, maxIdx db cid + 1, ts⟩ : MsgRow)]).filter
      (fun m => m.chatId == c)
    = if cid = c
      then msgsOf db c ++ [(⟨newId, cid, role, content, maxIdx db cid + 1, ts⟩ : MsgRow)]
      else msgsOf db c
  rw [List.filter_append]
  by_cases hc : cid = c
  · rw [if_pos hc]
    subst hc
    simp [msgsOf]
  · rw [if_neg hc]
    simp [msgsOf, hc]

theorem appendTx_hit_out (db : Db) (uid cid role content newId ts : String)
    (ch : ChatRow) (h : findChat db cid uid = some ch) :
    (appendTx none db uid cid role content newId ts).2
      = .ok ⟨newId, maxIdx db cid + 1, ts⟩ := by
  rw [appendTx_none_hit db uid cid role content newId ts ch h]

theorem intOfNat_cast (n : Nat) : Int.ofNat n = (n : Int) := rfl

theorem foldr_max_le (xs : List Int) (c : Int) (h : ∀ x ∈ xs, x ≤ c) :
    xs.foldr max c = c := by
  induction xs with
  | nil => rfl
  | cons x rest ih =>
    rw [List.foldr_cons, ih (fun y hy => h y (List.mem_cons_of_mem x hy))]
    exact max_eq_right (h x (List.mem_cons_self x rest))

theorem foldr_max_range (n : Nat) :
    ((List.range n).map Int.ofNat).foldr max (-1) = (n : Int) - 1 := by
  induction n with
  | zero => simp
  | succ k ih =>
    rw [List.range_succ, List.map_append, List.foldr_append]
    rw [show (List.foldr max (-1) (List.map Int.ofNat [k])) = max (Int.ofNat k) (-1) from rfl]
    rw [max_eq_left (by rw [intOfNat_cast]; omega)]
    rw [foldr_max_le _ _ (by
      intro x hx
      simp only [List.mem_map, List.mem_range] at hx
      obtain ⟨i, hi, rfl⟩ := hx
      simp only [intOfNat_cast]
      omega)]
    simp only [intOfNat_cast]
    omega

theorem maxIdx_of_inv (db : Db) (c : String)
    (h : (msgsOf db c).map (fun m => m.idx)
          = (List.range (msgsOf db c).length).map Int.ofNat) :
    maxIdx db c = ((msgsOf db c).length : Int) - 1 := by
  rw [maxIdx, h, foldr_max_range]

theorem stepOp_preserves_inv (db : Db) (op : Op)
    (h : ∀ c, (msgsOf db c).map (fun m => m.idx)
          = (List.range (msgsOf db c).length).map Int.ofNat) :
    ∀ c, (msgsOf (stepOp db op).1 c).map (fun m => m.idx)
          = (List.range (msgsOf (stepOp db op).1 c).length).map Int.ofNat := by
  intro c
  cases op with
  | createChat id uid title model incog ts =>
    have hmsg : msgsOf (stepOp db (.createChat id uid title model incog ts)).1 c
        = msgsOf db c := by
      rw [stepOp]
      by_cases hdup : (db.chats.find? (fun ch => ch.id == id)).isSome
      · rw [if_pos hdup]
      · rw [if_neg hdup]; rfl
    rw [hmsg]; exact h c
  | append uid cid role content newId ts =>
    have hstep : (stepOp db (.append uid cid role content newId ts)).1
        = (appendTx none db uid cid role content newId ts).1 := rfl
    rw [hstep]
    cases hf : findChat db cid uid with
    | none => rw [appendTx_none_miss db uid cid role content newId ts hf]; exact h c
    | some ch =>
      have hm := msgsOf_appendTx_hit db uid cid role content newId ts ch hf
      by_cases hc : cid = c
      · subst hc
        rw [hm cid, if_pos rfl, List.map_append, h cid,
          maxIdx_of_inv db cid (h cid), List.length_append]
        simp only [List.length_cons, List.length_nil, Nat.zero_add]
        rw [List.range_succ, List.map_append]
        congr 1
        simp only [List.map_cons, List.map_nil]
        congr 1
        rw [intOfNat_cast]
        omega
      · rw [hm c, if_neg hc]
        exact h c

theorem runOps_inv (ops : List Op) : ∀ (db : Db),
    (∀ c, (msgsOf db c).map (fun m => m.idx)
        = (List.range (msgsOf db c).length).map Int.ofNat) →
    ∀ c, (msgsOf (runOps db ops) c).map (fun m => m.idx)
        = (List.range (msgsOf (runOps db ops) c).length).map Int.ofNat := by
  induction ops with
  | nil => intro db h c; exact h c
  | cons op rest ih =>
    intro db h c
    rw [runOps]
    exact ih (stepOp db op).1 (stepOp_preserves_inv db op h) c

theorem stepOp_count (db : Db) (op : Op) (c : String) :
    (msgsOf (stepOp db op).1 c).length
      = (msgsOf db c).length + (if op.isAppendTo c && (stepOp db op).2 then 1 else 0) := by
  cases op with
  | createChat id uid title model incog ts =>
    rw [show Op.isAppendTo c (.createChat id uid title model incog ts) = false from rfl]
    simp only [Bool.false_and, if_false]
    rw [stepOp]
    by_cases hdup : (db.chats.find? (fun ch => ch.id == id)).isSome
    · rw [if_pos hdup]; simp
    · rw [if_neg hdup]; simp [msgsOf]
  | append uid cid role content newId ts =>
    have hsnd : (stepOp db (.append uid cid role content newId ts))
        = ((appendTx none db uid cid role content newId ts).1,
           (appendTx none db uid cid role content newId ts).2.isOk) := rfl
    rw [hsnd]
    cases hf : findChat db cid uid with
    | none =>
      rw [appendTx_none_miss db uid cid role content newId ts hf]
      rw [show (Except.error ApiErr.notFound : Except ApiErr AppendOut).isOk = false
            from rfl]
      simp
    | some ch =>
      have hm := msgsOf_appendTx_hit db uid cid role content newId ts ch hf
      rw [show Op.isAppendTo c (.append uid cid role content newId ts) = (cid == c)
            from rfl]
      rw [appendTx_hit_out db uid cid role content newId ts ch hf]
      by_cases hc : cid = c
      · subst hc
        rw [hm cid, if_pos rfl]
        rw [show (Except.ok (⟨newId, maxIdx db cid + 1, ts⟩ : AppendOut)
              : Except ApiErr AppendOut).isOk = true from rfl]
        simp
      · rw [hm c, if_neg hc]
        rw [show ((cid == c : Bool)) = false from by simpa using hc]
        simp

theorem runOps_count (ops : List Op) : ∀ (db : Db) (c : String),
    (msgsOf (runOps db ops) c).length = (msgsOf db c).length + succAppends db c ops := by
  induction ops with
  | nil => intro db c; rw [runOps, succAppends]; omega
  | cons op rest ih =>
    intro db c
    rw [runOps, succAppends, ih (stepOp db op).1 c, stepOp_count db op c]
    omega

/-- C1: running any serialized trace of operations from the empty store
(the exclusive row lock of the append transaction serializes the
concurrent append calls of one conversation, so these traces are exactly
the admissible interleavings), each conversation's `list` result carries
positions exactly `0, 1, ..., N-1` in ascending order — `N` being the
number of successful appends to that conversation — with no gaps and no
duplicates. -/
theorem ledger_ordering_invariant (ops : List Op) (c : String) :
    (listMessages (runOps Db.empty ops) c).map (fun m => m.idx)
      = (List.range (succAppends Db.empty c ops)).map Int.ofNat
    ∧ (listMessages (runOps Db.empty ops) c).length = succAppends Db.empty c ops := by
  have hinv := runOps_inv ops Db.empty (by intro c2; rfl) c
  have hcount : (msgsOf (runOps Db.empty ops) c).length = succAppends Db.empty c ops := by
    have := runOps_count ops Db.empty c
    simpa [msgsOf, Db.empty] using this
  have hsorted : List.Sorted (fun a b : MsgRow => a.idx ≤ b.idx)
      (msgsOf (runOps Db.empty ops) c) := by
    rw [List.Sorted, ← List.pairwise_map (f := fun m : MsgRow => m.idx), hinv]
    rw [List.pairwise_map]
    have := List.pairwise_lt_range (n := (msgsOf (runOps Db.empty ops) c).length)
    exact this.imp (by
      intro a b hab
      simp only [intOfNat_cast]
      exact_mod_cast le_of_lt hab)
  have hsort : listMessages (runOps Db.empty ops) c = msgsOf (runOps Db.empty ops) c := by
    rw [listMessages]
    exact List.Sorted.insertionSort_eq hsorted
  refine ⟨?_, ?_⟩
  · rw [hsort, hinv, hcount]
  · rw [hsort, hcount]

/-! ## Claims about the Continuation Controller and the turn orchestration -/

theorem contLoop_one (t : List Char) (oracle : List Char → List Char) :
    contLoop 1 t oracle = (t, []) := by
  rw [contLoop]
  rw [dif_neg (by omega)]

theorem contLoop_zero (t : List Char) (oracle : List Char → List Char) :
    contLoop 0 t oracle
      = if hasOpenCodeFence t = true
        then (cleanText (t ++ oracle (takeLast 800 t)), [PCall.repairReq (takeLast 800 t)])
        else (t, []) := by
  by_cases h : hasOpenCodeFence t = true
  · rw [contLoop, dif_pos ⟨by omega, h⟩, if_pos h, contLoop_one]
  · rw [contLoop, dif_neg (by simp [h]), if_neg h]

/-- C8: on text with an odd fence-marker count the continuation loop
issues exactly one repair generation request, whose prompt carries the
last 800 characters of the current text; whatever the repair stream
returns — in particular when the fence count is still odd afterwards —
no second request is issued and the merged, re-cleaned text is accepted
as the result, with no error. -/
theorem continuation_single_repair (t : List Char) (oracle : List Char → List Char)
    (h : hasOpenCodeFence t = true) :
    contLoop 0 t oracle
      = (cleanText (t ++ oracle (takeLast 800 t)), [PCall.repairReq (takeLast 800 t)])
    ∧ (contLoop 0 t oracle).2.length = 1 := by
  rw [contLoop_zero, if_pos h]
  exact ⟨rfl, rfl⟩

/-- Concrete instance of the single-repair theorem, with a repair stream
that still leaves the fence count odd: the text is accepted anyway and
only one request was sent. -/
theorem continuation_single_repair_witness :
    hasOpenCodeFence (("```abc").data) = true
    ∧ contLoop 0 (("```abc").data) (fun _ => ("x").data)
        = (cleanText ((("```abc").data) ++ ("x").data),
           [PCall.repairReq (takeLast 800 (("```abc").data))])
    ∧ (contLoop 0 (("```abc").data) (fun _ => ("x").data)).2.length = 1 := by
  have h := continuation_single_repair (("```abc").data) (fun _ => ("x").data) (by decide)
  exact ⟨by decide, h.1, h.2⟩

theorem sendChat_threw (incognito : Bool) (currentChatId createdId : Option (List Char))
    (sendModel userText : List Char) (chunks : List (List Char)) (abortAt : Option Nat)
    (oracle : List Char → List Char) (ok : PCall → Bool)
    (h : (chatWithOllama chunks abortAt).threw = true) :
    (sendChat incognito currentChatId createdId sendModel userText chunks
        abortAt oracle ok).1
      = (if incognito = false ∧ currentChatId = none
         then [PCall.createChat sendModel] else []) := by
  unfold sendChat
  by_cases hd : (incognito = false ∧ currentChatId = none) ∧ createdId = none
  · rw [dif_pos hd]
  · rw [dif_neg hd]
    simp [h]

/-- C4: a turn whose primary stream is aborted before any terminal record
(the `read()` raising `AbortError` after any number of delta events)
never reaches `onDone`, so the turn makes no ledger append call at all —
in particular no assistant message is appended. -/
theorem abort_no_assistant_append
    (incognito : Bool) (currentChatId createdId : Option (List Char))
    (sendModel userText : List Char) (chunks : List (List Char)) (k : Nat)
    (oracle : List Char → List Char) (ok : PCall → Bool)
    (h : (chatWithOllama chunks (some k)).threw = true) :
    ((sendChat incognito currentChatId createdId sendModel userText chunks
        (some k) oracle ok).1.filter PCall.isAppend) = [] := by
  rw [sendChat_threw incognito currentChatId createdId sendModel userText chunks
    (some k) oracle ok h]
  by_cases hn : incognito = false ∧ currentChatId = none
  · rw [if_pos hn]
    rfl
  · rw [if_neg hn]
    rfl

/-- Concrete instance of the aborted-turn theorem: the stream is aborted
at the very first read, after which the turn issues no append call. -/
theorem abort_no_assistant_append_witness :
    (chatWithOllama [("\x7b\"message\":\x7b\"content\":\"ab\"\x7d\x7d\n").data]
        (some 0)).threw = true
    ∧ ((sendChat false none (some (("c1").data)) (("m").data) (("hi").data)
          [("\x7b\"message\":\x7b\"content\":\"ab\"\x7d\x7d\n").data]
          (some 0) (fun _ => []) (fun _ => true)).1.filter PCall.isAppend) = [] :=
  ⟨by decide,
   abort_no_assistant_append false none (some (("c1").data)) (("m").data) (("hi").data)
     [("\x7b\"message\":\x7b\"content\":\"ab\"\x7d\x7d\n").data] 0
     (fun _ => []) (fun _ => true) (by decide)⟩

theorem loopChunks_none_not_threw : ∀ (chunks : List (List Char)) (buf acc : List Char)
    (evs : List Ev), (loopChunks buf acc evs chunks none).threw = false := by
  intro chunks
  induction chunks with
  | nil =>
    intro buf acc evs
    rw [loopChunks, if_neg (by simp)]
  | cons ch rest ih =>
    intro buf acc evs
    rw [loopChunks, if_neg (by simp)]
    by_cases hd : (processLines acc (splitNL (buf ++ ch)).1).2.2 = true
    · rw [if_pos hd]
    · rw [if_neg hd]
      rw [show (none : Option Nat).map (fun k => k - 1) = none from rfl]
      exact ih _ _ _

theorem chatWithOllama_none_not_threw (chunks : List (List Char)) :
    (chatWithOllama chunks none).threw = false := by
  unfold chatWithOllama
  simp only [loopChunks_none_not_threw, Bool.false_eq_true, if_false]
  split <;> rfl

theorem persistBlock_all_ok (ok : PCall → Bool) (h : ∀ c, ok c = true)
    (cid userText finalText sendModel : List Char) :
    persistBlock ok cid userText finalText sendModel
      = [PCall.appendMsg cid (("user").data) userText,
         PCall.appendMsg cid (("assistant").data) finalText,
         PCall.updateChat cid (titleOf userText) sendModel,
         PCall.deleteDraft] := by
  unfold persistBlock
  simp [h]

theorem titleOf_of_ne (userText : List Char) (h : userText ≠ []) :
    titleOf userText = userText.take 60 := by
  rw [titleOf, if_neg h]

theorem contLoop_calls_shape (t : List Char) (oracle : List Char → List Char) :
    (contLoop 0 t oracle).2.filter PCall.isCreate = []
    ∧ (contLoop 0 t oracle).2.filter PCall.isAppend = [] := by
  rw [contLoop_zero]
  by_cases h : hasOpenCodeFence t = true
  · rw [if_pos h]; exact ⟨rfl, rfl⟩
  · rw [if_neg h]; exact ⟨rfl, rfl⟩

theorem sendChat_incognito (curr created : Option (List Char))
    (sendModel userText : List Char) (chunks : List (List Char))
    (oracle : List Char → List Char) (ok : PCall → Bool) :
    sendChat true curr created sendModel userText chunks none oracle ok
      = ((contLoop 0 (cleanText (chatWithOllama chunks none).acc) oracle).2, false,
         some (contLoop 0 (cleanText (chatWithOllama chunks none).acc) oracle).1) := by
  unfold sendChat
  rw [dif_neg (by simp)]
  rw [if_neg (by simp [chatWithOllama_none_not_threw])]
  simp

theorem sendChat_open_chat (c0 : List Char) (created : Option (List Char))
    (sendModel userText : List Char) (chunks : List (List Char))
    (oracle : List Char → List Char) (ok : PCall → Bool) :
    sendChat false (some c0) created sendModel userText chunks none oracle ok
      = ((contLoop 0 (cleanText (chatWithOllama chunks none).acc) oracle).2
           ++ persistBlock ok c0 userText
                (contLoop 0 (cleanText (chatWithOllama chunks none).acc) oracle).1
                sendModel,
         false,
         some (contLoop 0 (cleanText (chatWithOllama chunks none).acc) oracle).1) := by
  unfold sendChat
  rw [dif_neg (by simp)]
  rw [if_neg (by simp [chatWithOllama_none_not_threw])]
  simp [resolvedChat]

theorem sendChat_fresh_chat (cid : List Char)
    (sendModel userText : List Char) (chunks : List (List Char))
    (oracle : List Char → List Char) (ok : PCall → Bool) :
    sendChat false none (some cid) sendModel userText chunks none oracle ok
      = (PCall.createChat sendModel
           :: ((contLoop 0 (cleanText (chatWithOllama chunks none).acc) oracle).2
               ++ persistBlock ok cid userText
                    (contLoop 0 (cleanText (chatWithOllama chunks none).acc) oracle).1
                    sendModel),
         false,
         some (contLoop 0 (cleanText (chatWithOllama chunks none).acc) oracle).1) := by
  unfold sendChat
  rw [dif_neg (by simp)]
  rw [if_neg (by simp [chatWithOllama_none_not_threw])]
  simp [resolvedChat]

/-- C5: a turn with the incognito flag set creates no conversation and
makes no ledger append call; a completed non-incognito turn issues
exactly two append calls — the user message first, the assistant message
second — followed by a metadata update whose title is the first 60
characters of the user turn, and by the draft deletion. -/
theorem ephemeral_and_persistence_calls
    (incognito : Bool) (curr created : Option (List Char))
    (sendModel userText : List Char) (chunks : List (List Char))
    (oracle : List Char → List Char) (ok : PCall → Bool) (cid : List Char)
    (h1 : incognito = false → resolvedChat curr created = some cid)
    (h2 : ∀ call, ok call = true)
    (h3 : userText ≠ []) :
    (incognito = true →
      (sendChat incognito curr created sendModel userText chunks none oracle ok).1.filter
          PCall.isCreate = []
      ∧ (sendChat incognito curr created sendModel userText chunks none oracle ok).1.filter
          PCall.isAppend = [])
    ∧ (incognito = false →
      ∃ ft pre,
        (sendChat incognito curr created sendModel userText chunks none oracle ok).2.2
            = some ft
        ∧ (sendChat incognito curr created sendModel userText chunks none oracle ok).1
            = pre ++ [PCall.appendMsg cid (("user").data) userText,
                      PCall.appendMsg cid (("assistant").data) ft,
                      PCall.updateChat cid (userText.take 60) sendModel,
                      PCall.deleteDraft]
        ∧ (sendChat incognito curr created sendModel userText chunks none oracle ok).1.filter
            PCall.isAppend
            = [PCall.appendMsg cid (("user").data) userText,
               PCall.appendMsg cid (("assistant").data) ft]) := by
  constructor
  · intro hI
    subst hI
    rw [sendChat_incognito curr created sendModel userText chunks oracle ok]
    exact contLoop_calls_shape (cleanText (chatWithOllama chunks none).acc) oracle
  · intro hI
    subst hI
    have hres := h1 rfl
    refine ⟨(contLoop 0 (cleanText (chatWithOllama chunks none).acc) oracle).1, ?_⟩
    cases curr with
    | some c0 =>
      have hc0 : c0 = cid := by
        rw [resolvedChat] at hres
        exact Option.some_injective _ hres
      subst hc0
      rw [sendChat_open_chat c0 created sendModel userText chunks oracle ok]
      refine ⟨(contLoop 0 (cleanText (chatWithOllama chunks none).acc) oracle).2, rfl, ?_, ?_⟩
      · rw [persistBlock_all_ok ok h2, titleOf_of_ne userText h3]
      · rw [persistBlock_all_ok ok h2, List.filter_append,
          (contLoop_calls_shape (cleanText (chatWithOllama chunks none).acc) oracle).2]
        rfl
    | none =>
      have hcr : created = some cid := by
        rw [resolvedChat] at hres
        exact hres
      subst hcr
      rw [sendChat_fresh_chat cid sendModel userText chunks oracle ok]
      refine ⟨PCall.createChat sendModel
          :: (contLoop 0 (cleanText (chatWithOllama chunks none).acc) oracle).2, rfl, ?_, ?_⟩
      · rw [persistBlock_all_ok ok h2, titleOf_of_ne userText h3]
        simp
      · rw [persistBlock_all_ok ok h2]
        dsimp only
        rw [List.filter_cons_of_neg (by simp [PCall.isAppend])]
        rw [List.filter_append,
          (contLoop_calls_shape (cleanText (chatWithOllama chunks none).acc) oracle).2]
        rfl

/-- Concrete instance of the persistence-calls theorem, on a completed
non-incognito turn writing to an existing conversation. -/
theorem ephemeral_and_persistence_calls_witness :
    ∃ ft pre,
      (sendChat false (some (("c1").data)) none (("m").data) (("hallo").data)
          [("\x7b\"done\":true\x7d\n").data] none (fun _ => []) (fun _ => true)).2.2
          = some ft
      ∧ (sendChat false (some (("c1").data)) none (("m").data) (("hallo").data)
          [("\x7b\"done\":true\x7d\n").data] none (fun _ => []) (fun _ => true)).1
          = pre ++ [PCall.appendMsg (("c1").data) (("user").data) (("hallo").data),
                    PCall.appendMsg (("c1").data) (("assistant").data) ft,
                    PCall.updateChat (("c1").data) ((("hallo").data).take 60) (("m").data),
                    PCall.deleteDraft]
      ∧ (sendChat false (some (("c1").data)) none (("m").data) (("hallo").data)
          [("\x7b\"done\":true\x7d\n").data] none (fun _ => []) (fun _ => true)).1.filter
          PCall.isAppend
          = [PCall.appendMsg (("c1").data) (("user").data) (("hallo").data),
             PCall.appendMsg (("c1").data) (("assistant").data) ft] :=
  (ephemeral_and_persistence_calls false (some (("c1").data)) none (("m").data)
    (("hallo").data) [("\x7b\"done\":true\x7d\n").data] (fun _ => []) (fun _ => true)
    (("c1").data) (fun _ => rfl) (fun _ => rfl) (by decide)).2 rfl

/-! ## Claims about the decoder at end of stream -/

theorem processLine_empty (acc line : List Char) (hs : jsTrim line = []) :
    processLine acc line = (acc, [], false) := by
  unfold processLine
  rw [if_pos hs]

theorem processLine_noparse (acc line : List Char) (hs : jsTrim line ≠ [])
    (hp : Json.parse (jsTrim line) = none) :
    processLine acc line = (acc, [], false) := by
  unfold processLine
  rw [if_neg hs, hp]

theorem processLine_hit (acc line : List Char) (j : Json) (hs : jsTrim line ≠ [])
    (hp : Json.parse (jsTrim line) = some j) :
    processLine acc line
      = if doneFlag j = true then
          (acc ++ pieceOf j,
           (if pieceOf j = [] then [] else [Ev.delta (pieceOf j)])
             ++ [Ev.done (acc ++ pieceOf j)],
           true)
        else
          (acc ++ pieceOf j,
           if pieceOf j = [] then [] else [Ev.delta (pieceOf j)],
           false) := by
  unfold processLine
  rw [if_neg hs, hp]

theorem processLine_shape (acc line : List Char)
    (h : (processLine acc line).2.2 = false) :
    (processLine acc line).2.1 = []
    ∨ ∃ p, (processLine acc line).2.1 = [Ev.delta p] := by
  by_cases hs : jsTrim line = []
  · rw [processLine_empty acc line hs]
    exact Or.inl rfl
  · cases hp : Json.parse (jsTrim line) with
    | none =>
      rw [processLine_noparse acc line hs hp]
      exact Or.inl rfl
    | some j =>
      rw [processLine_hit acc line j hs hp] at h ⊢
      have hd : doneFlag j = false := by
        by_contra hx
        rw [if_pos (Bool.ne_false_iff.mp hx)] at h
        simp at h
      rw [if_neg (by rw [hd]; exact Bool.false_ne_true)]
      by_cases hpc : pieceOf j = []
      · exact Or.inl (by rw [if_pos hpc])
      · exact Or.inr ⟨pieceOf j, by rw [if_neg hpc]⟩

theorem processLines_shape : ∀ (lines : List (List Char)) (acc : List Char),
    (processLines acc lines).2.2 = false →
    ∀ e ∈ (processLines acc lines).2.1, e.isDelta = true := by
  intro lines
  induction lines with
  | nil =>
    intro acc h e hmem
    rw [processLines] at hmem
    cases hmem
  | cons line rest ih =>
    intro acc h e hmem
    rw [processLines] at h hmem
    by_cases hd : (processLine acc line).2.2 = true
    · rw [if_pos hd] at h
      cases h
    · rw [if_neg hd] at h hmem
      rcases List.mem_append.mp hmem with hm | hm
      · rcases processLine_shape acc line (by
            rcases Bool.eq_false_or_eq_true (processLine acc line).2.2 with h0 | h0
            · exact absurd h0 hd
            · exact h0) with hsh | ⟨p, hsh⟩
        · rw [hsh] at hm
          cases hm
        · rw [hsh] at hm
          rcases List.mem_singleton.mp hm with rfl
          rfl
      · exact ih (processLine acc line).1 h e hm

theorem loopChunks_shape : ∀ (chunks : List (List Char)) (buf acc : List Char)
    (evs : List Ev) (ab : Option Nat),
    (loopChunks buf acc evs chunks ab).sawDone = false →
    ∀ e ∈ (loopChunks buf acc evs chunks ab).events, e ∈ evs ∨ e.isDelta = true := by
  intro chunks
  induction chunks with
  | nil =>
    intro buf acc evs ab h e hmem
    rw [loopChunks] at hmem
    by_cases ha : ab = some 0
    · rw [if_pos ha] at hmem
      exact Or.inl hmem
    · rw [if_neg ha] at hmem
      exact Or.inl hmem
  | cons ch rest ih =>
    intro buf acc evs ab h e hmem
    rw [loopChunks] at h hmem
    by_cases ha : ab = some 0
    · rw [if_pos ha] at hmem
      exact Or.inl hmem
    · rw [if_neg ha] at h hmem
      by_cases hd : (processLines acc (splitNL (buf ++ ch)).1).2.2 = true
      · rw [if_pos hd] at h
        cases h
      · rw [if_neg hd] at h hmem
        rcases ih (splitNL (buf ++ ch)).2
            (processLines acc (splitNL (buf ++ ch)).1).1
            (evs ++ (processLines acc (splitNL (buf ++ ch)).1).2.1)
            (ab.map (fun k => k - 1)) h e hmem with hm | hm
        · rcases List.mem_append.mp hm with hm2 | hm2
          · exact Or.inl hm2
          · refine Or.inr (processLines_shape (splitNL (buf ++ ch)).1 acc ?_ e hm2)
            rcases Bool.eq_false_or_eq_true (processLines acc (splitNL (buf ++ ch)).1).2.2
              with h0 | h0
            · exact absurd h0 hd
            · exact h0
        · exact Or.inr hm

theorem flushTail_noparse (buf acc : List Char)
    (h : jsTrim buf = [] ∨ Json.parse (jsTrim buf) = none) :
    flushTail buf acc = (acc, []) := by
  unfold flushTail
  rcases h with hs | hp
  · rw [if_pos hs]
  · by_cases hs : jsTrim buf = []
    · rw [if_pos hs]
    · rw [if_neg hs, hp]

theorem flushTail_hit (buf acc : List Char) (j : Json) (hs : jsTrim buf ≠ [])
    (hp : Json.parse (jsTrim buf) = some j) :
    flushTail buf acc
      = if pieceOf j = [] then (acc, [])
        else (acc ++ pieceOf j, [Ev.delta (pieceOf j)]) := by
  unfold flushTail
  rw [if_neg hs, hp]

theorem flushTail_shape (buf acc : List Char) :
    (flushTail buf acc).2 = [] ∨ ∃ p, (flushTail buf acc).2 = [Ev.delta p] := by
  by_cases hs : jsTrim buf = []
  · rw [flushTail_noparse buf acc (Or.inl hs)]
    exact Or.inl rfl
  · cases hp : Json.parse (jsTrim buf) with
    | none =>
      rw [flushTail_noparse buf acc (Or.inr hp)]
      exact Or.inl rfl
    | some j =>
      rw [flushTail_hit buf acc j hs hp]
      by_cases hpc : pieceOf j = []
      · rw [if_pos hpc]
        exact Or.inl rfl
      · rw [if_neg hpc]
        exact Or.inr ⟨pieceOf j, rfl⟩

/-- C7: when the transport ends before any terminal record, the decoder
flushes the buffered trailing fragment best-effort as one final delta
event after the loop's events, every event of the run is a delta (no
done event), the accumulated text is the flushed accumulator, and
`onDone` still runs — stream end acts as an implicit completion. -/
theorem decoder_eof_flush (chunks : List (List Char))
    (h : (chatWithOllama chunks none).sawDone = false) :
    (chatWithOllama chunks none).events
      = (loopChunks [] [] [] chunks none).events
        ++ (flushTail (loopChunks [] [] [] chunks none).buf
             (loopChunks [] [] [] chunks none).acc).2
    ∧ (chatWithOllama chunks none).acc
        = (flushTail (loopChunks [] [] [] chunks none).buf
            (loopChunks [] [] [] chunks none).acc).1
    ∧ (∀ e ∈ (chatWithOllama chunks none).events, e.isDelta = true)
    ∧ (chatWithOllama chunks none).doneCalled = true := by
  have hthrew : (loopChunks [] [] [] chunks none).threw = false :=
    loopChunks_none_not_threw chunks [] [] []
  have hsd : (loopChunks [] [] [] chunks none).sawDone = false := by
    by_contra hx
    have hx2 := Bool.ne_false_iff.mp hx
    rw [show (chatWithOllama chunks none).sawDone = true from by
      unfold chatWithOllama
      rw [if_neg (by rw [hthrew]; exact Bool.false_ne_true),
        if_pos hx2]] at h
    cases h
  have hch : chatWithOllama chunks none
      = ⟨(loopChunks [] [] [] chunks none).events
           ++ (flushTail (loopChunks [] [] [] chunks none).buf
                (loopChunks [] [] [] chunks none).acc).2,
         (flushTail (loopChunks [] [] [] chunks none).buf
           (loopChunks [] [] [] chunks none).acc).1,
         (loopChunks [] [] [] chunks none).buf, false, true, false⟩ := by
    unfold chatWithOllama
    rw [if_neg (by rw [hthrew]; exact Bool.false_ne_true),
      if_neg (by rw [hsd]; exact Bool.false_ne_true)]
  refine ⟨by rw [hch], by rw [hch], ?_, by rw [hch]⟩
  intro e hmem
  rw [hch] at hmem
  rcases List.mem_append.mp hmem with hm | hm
  · rcases loopChunks_shape chunks [] [] [] none hsd e hm with hm2 | hm2
    · cases hm2
    · exact hm2
  · rcases flushTail_shape (loopChunks [] [] [] chunks none).buf
        (loopChunks [] [] [] chunks none).acc with hsh | ⟨p, hsh⟩
    · rw [hsh] at hm
      cases hm
    · rw [hsh] at hm
      rcases List.mem_singleton.mp hm with rfl
      rfl

/-- Concrete instance of the end-of-stream theorem: one chunk carrying a
complete delta record and an unterminated trailing record with no
newline; the tail is parsed and flushed as a final delta, and completion
is implicit. -/
theorem decoder_eof_flush_witness :
    (chatWithOllama
        [("\x7b\"message\":\x7b\"content\":\"ab\"\x7d\x7d\n\x7b\"response\":\"cd\"\x7d").data]
        none).sawDone = false
    ∧ (chatWithOllama
        [("\x7b\"message\":\x7b\"content\":\"ab\"\x7d\x7d\n\x7b\"response\":\"cd\"\x7d").data]
        none).events
        = (loopChunks [] [] []
            [("\x7b\"message\":\x7b\"content\":\"ab\"\x7d\x7d\n\x7b\"response\":\"cd\"\x7d").data]
            none).events
          ++ (flushTail
               (loopChunks [] [] []
                 [("\x7b\"message\":\x7b\"content\":\"ab\"\x7d\x7d\n\x7b\"response\":\"cd\"\x7d").data]
                 none).buf
               (loopChunks [] [] []
                 [("\x7b\"message\":\x7b\"content\":\"ab\"\x7d\x7d\n\x7b\"response\":\"cd\"\x7d").data]
                 none).acc).2
    ∧ (chatWithOllama
        [("\x7b\"message\":\x7b\"content\":\"ab\"\x7d\x7d\n\x7b\"response\":\"cd\"\x7d").data]
        none).doneCalled = true
    ∧ (chatWithOllama
        [("\x7b\"message\":\x7b\"content\":\"ab\"\x7d\x7d\n\x7b\"response\":\"cd\"\x7d").data]
        none).events
        = [Ev.delta (("ab").data), Ev.delta (("cd").data)] := by
  have h := decoder_eof_flush
    [("\x7b\"message\":\x7b\"content\":\"ab\"\x7d\x7d\n\x7b\"response\":\"cd\"\x7d").data]
    (by decide)
  exact ⟨by decide, h.1, h.2.2.2, by decide⟩
